import Mathlib

/-!
Verification of the Serialize library (src/serialize.js): a rich-text block is
modelled as a text buffer together with an ordered list of markups, each markup
being a half-open range [start, end) tagged with a numeric type and an optional
href.  Text is modelled as a list of UTF-16-like code units (Lean characters),
markup positions as integers.  The file first embeds the data model and the
operations of the source, then proves the stated properties about them.
-/

/-- Markup record from serialize.js: a numeric type identifier, a half-open
range [start, end), and an optional href (present only on link markups; an
absent JavaScript key is modelled as `none`). -/
structure Markup where
  type : Int
  start : Int
  «end» : Int
  href : Option String := none
deriving DecidableEq, Repr

/-- Serialization record from serialize.js: a tag name, the text, and the list
of markups.  The source keeps a `length` field automatically synchronized with
the text by a property setter; here it is the derived function
`Serialize.length`. -/
structure Serialize where
  type : String
  text : List Char
  markups : List Markup
deriving DecidableEq, Repr

/-- Length of a serialization, kept equal to the length of its text by the
source's text setter (serialize.js lines 29-39). -/
def Serialize.length (s : Serialize) : Nat := s.text.length

/-- Advance condition of the first while loop of Serialize#addMarkup
(serialize.js line 76): the candidate's type is still smaller than the added
markup's type. -/
def amc1 (t m : Markup) : Bool := decide (t.type > m.type)

/-- Advance condition of the second while loop of Serialize#addMarkup
(serialize.js lines 79-84): same type, smaller start. -/
def amc2 (t m : Markup) : Bool := decide (t.type = m.type ∧ t.start > m.start)

/-- Advance condition of the third while loop of Serialize#addMarkup
(serialize.js lines 86-92): same type and start, smaller end. -/
def amc3 (t m : Markup) : Bool := decide (t.type = m.type ∧ t.start = m.start ∧ t.«end» > m.«end»)

/-- Insertion position search and splice of Serialize#addMarkup (serialize.js
lines 72-97): three sequential while loops advance the insertion index past
markups of smaller type, then past same-type markups of smaller start, then
past same-type same-start markups of smaller end; the markup is spliced in at
the resulting index.  Each while loop is a takeWhile/dropWhile pair on the
remainder left by the previous loop. -/
def addMarkupList (ms : List Markup) (t : Markup) : List Markup :=
  ms.takeWhile (amc1 t) ++
    ((ms.dropWhile (amc1 t)).takeWhile (amc2 t) ++
      (((ms.dropWhile (amc1 t)).dropWhile (amc2 t)).takeWhile (amc3 t) ++
        t :: ((ms.dropWhile (amc1 t)).dropWhile (amc2 t)).dropWhile (amc3 t)))

/-- Serialize#addMarkup (serialize.js lines 72-97). -/
def Serialize.addMarkup (s : Serialize) (t : Markup) : Serialize :=
  { s with markups := addMarkupList s.markups t }

/-- Loop body of Serialize#removeMarkup (serialize.js lines 119-174), expressed
as a recursion over the markup list.  A markup of larger type stops the scan
(break); a markup of a different smaller type is kept (continue); a same-type
markup fully containing the removed range is split into its before/after
pieces, keeping the non-empty ones, and the scan stops (the source returns
immediately from the containing case); a partially overlapping same-type markup
has its start clamped up to the range end and its end clamped down to the range
start, and is dropped when the clamped range is empty. -/
def removeMarkupList (t : Markup) : List Markup → List Markup
  | [] => []
  | m :: rest =>
    if t.type < m.type then m :: rest
    else if m.type ≠ t.type then m :: removeMarkupList t rest
    else if m.start ≤ t.start ∧ m.«end» ≥ t.«end» then
      let before : Markup := { type := m.type, start := m.start, «end» := t.start, href := m.href }
      let after : Markup := { type := m.type, start := t.«end», «end» := m.«end», href := m.href }
      if after.start ≠ after.«end» ∧ before.start ≠ before.«end» then before :: after :: rest
      else if before.start ≠ before.«end» then before :: rest
      else if after.start ≠ after.«end» then after :: rest
      else rest
    else
      let s1 : Int := if m.start ≥ t.start ∧ m.start < t.«end» then t.«end» else m.start
      let e1 : Int := if m.«end» > t.start ∧ m.«end» ≤ t.«end» then t.start else m.«end»
      if e1 ≤ s1 then removeMarkupList t rest
      else { type := m.type, start := s1, «end» := e1, href := m.href } :: removeMarkupList t rest

/-- Serialize#removeMarkup (serialize.js lines 119-174). -/
def Serialize.removeMarkup (s : Serialize) (t : Markup) : Serialize :=
  { s with markups := removeMarkupList t s.markups }

/-- Modelled from the spec: the file adjacent.js implementing the mergeAdjacent
pass is not under src/.  Per spec section 4.3, same-type markups whose ranges
touch or overlap (next.start less than or equal to previous.end) are merged
into a single markup spanning from the minimum start to the maximum end,
preserving the href, in a single left-to-right pass over the list.  The current
run representative is carried as an accumulator. -/
def mergeRun (cur : Markup) : List Markup → List Markup
  | [] => [cur]
  | m :: rest =>
    if cur.type = m.type ∧ m.start ≤ cur.«end» then
      mergeRun { type := cur.type, start := min cur.start m.start,
                 «end» := max cur.«end» m.«end», href := cur.href } rest
    else
      cur :: mergeRun m rest

/-- Modelled from the spec: entry point of the mergeAdjacent pass (adjacent.js
is not under src/; see mergeRun). -/
def mergeAdjacentList : List Markup → List Markup
  | [] => []
  | m :: rest => mergeRun m rest

/-- Serialize#mergeAdjacent (serialize.js lines 104-108), delegating to the
spec-modelled adjacent pass. -/
def Serialize.mergeAdjacent (s : Serialize) : Serialize :=
  { s with markups := mergeAdjacentList s.markups }

/-- Wrap-around loop of Serialize#substr (serialize.js lines 207-208): while
the start index is negative, the text length is added to it.  The loop is
fueled by the magnitude of the start index, which bounds the number of
iterations whenever the length is positive; the source only reaches the loop
with a positive length (the empty-text guard returns earlier). -/
def wrapStartAux (len : Nat) : Nat → Int → Int
  | 0, start => start
  | fuel+1, start => if start < 0 then wrapStartAux len fuel ((len : Int) + start) else start

/-- Resolution of a possibly negative start index by the wrap-around loop of
Serialize#substr. -/
def wrapStart (len : Nat) (start : Int) : Int :=
  wrapStartAux len (-start).toNat start

/-- Test used by the early-out guard of Serialize#substr (serialize.js line
204): in JavaScript, `length <= 0` is false when the length argument is
undefined, and compares the given number otherwise. -/
def lenArgNonpos : Option Int → Bool
  | none => false
  | some l => decide (l ≤ 0)

/-- Length defaulting and clamping of Serialize#substr (serialize.js lines
210-211): an undefined length argument, or one reaching past the end of the
text, becomes the distance from the resolved start to the end of the text. -/
def substrResolveLen (len : Nat) (start : Int) : Option Int → Int
  | none => (len : Int) - start
  | some l => if start + l > (len : Int) then (len : Int) - start else l

/-- Re-based copy of one markup produced by the loop of Serialize#substr
(serialize.js lines 220-231), for the slice [start, e) of the text: the copied
range is shifted by the slice start and clamped to the slice bounds. -/
def substrPiece (start e : Int) (m : Markup) : Markup :=
  { type := m.type,
    start := if m.start > start then m.start - start else 0,
    «end» := if m.«end» < e then m.«end» - start else e - start,
    href := m.href }

/-- Markup-copying loop of Serialize#substr (serialize.js lines 217-232): each
markup intersecting the slice [w, e) is re-based and inserted through
addMarkup. -/
def substrMarkups (w e : Int) (ms : List Markup) : List Markup :=
  ms.foldl (fun acc m =>
    if m.start < e ∧ m.«end» > w then addMarkupList acc (substrPiece w e m) else acc) []

/-- Serialize#substr (serialize.js lines 197-235).  An empty source text or a
non-positive length argument yields an empty serialization of the same tag.
Otherwise a negative start wraps from the end, the length is defaulted and
clamped so start+length does not exceed the text length, the text is sliced
(JavaScript String#substr returns the empty string when the resolved length is
negative or the start is past the end), and every markup intersecting the
slice is copied in, re-based and clamped to the slice, through addMarkup. -/
def Serialize.substr (s : Serialize) (start : Int) (len? : Option Int) : Serialize :=
  if s.text.length = 0 ∨ lenArgNonpos len? then
    { type := s.type, text := [], markups := [] }
  else
    { type := s.type,
      text := (s.text.drop (wrapStart s.text.length start).toNat).take
        (substrResolveLen s.text.length (wrapStart s.text.length start) len?).toNat,
      markups := substrMarkups (wrapStart s.text.length start)
        (wrapStart s.text.length start +
          substrResolveLen s.text.length (wrapStart s.text.length start) len?)
        s.markups }

/-- String branch of Serialize#append (serialize.js lines 281-296): an empty
string argument is falsy in JavaScript and returns the substr(0) copy; a
non-empty string is appended to the text of the substr(0) copy after every
markup whose end equals the copy's length has its end advanced by the string's
length. -/
def Serialize.appendString (s : Serialize) (str : List Char) : Serialize :=
  if str.isEmpty then s.substr 0 none
  else
    { type := (s.substr 0 none).type,
      text := (s.substr 0 none).text ++ str,
      markups := (s.substr 0 none).markups.map (fun m =>
        if m.«end» = ((s.substr 0 none).length : Int) then
          { m with «end» := m.«end» + (str.length : Int) }
        else m) }

/-- Markup recombination of the serialization branch of Serialize#append
(serialize.js lines 301-331): the receiver markups ams are re-inserted as
copies through addMarkup, the argument markups bms as copies shifted by the
receiver length, and the result is normalized by the mergeAdjacent pass. -/
def appendMarkups (shift : Int) (ams bms : List Markup) : List Markup :=
  mergeAdjacentList
    (bms.foldl (fun acc m =>
      addMarkupList acc { type := m.type, start := m.start + shift,
                          «end» := m.«end» + shift, href := m.href })
      (ams.foldl (fun acc m =>
        addMarkupList acc { type := m.type, start := m.start, «end» := m.«end», href := m.href })
        []))

/-- Serialization branch of Serialize#append, continued (serialize.js lines
298-334): the receiver markups are re-inserted as copies, the argument markups
as copies shifted by the receiver length, and the result is normalized by the
mergeAdjacent pass. -/
def Serialize.append (s other : Serialize) : Serialize :=
  { type := s.type, text := s.text ++ other.text,
    markups := appendMarkups (s.length : Int) s.markups other.markups }

/-- Serialize#equals (serialize.js lines 344-369): same tag, same text, same
number of markups with identical key sets and field values at each index;
field-by-field comparison of the markup records including the optional href. -/
def Serialize.equals (s other : Serialize) : Bool :=
  decide (s.type = other.type ∧ s.text = other.text ∧ s.markups = other.markups)

/-- Value of a field of a parsed JSON payload as far as fromJSON inspects it:
either a string or some non-string value. -/
inductive JVal where
  | str : List Char → JVal
  | other : JVal
deriving DecidableEq, Repr

/-- Parsed JSON payload handed to Serialize.fromJSON: each of the three fields
it reads may be absent.  The type field is modelled as an optional string
(JavaScript only checks its truthiness: absence and the empty string are the
falsy string cases). -/
structure Payload where
  text : Option JVal
  type : Option String
  markups : Option (List Markup)
deriving DecidableEq, Repr

/-- Serialize.fromJSON (serialize.js lines 427-439): the call throws when the
payload's text is not a string or its type is falsy (absent or empty), modelled
by `none`; otherwise it returns a serialization carrying the payload's type,
text and markups, the markups defaulting to the empty list when absent. -/
def Serialize.fromJSON (p : Payload) : Option Serialize :=
  match p.text, p.type with
  | some (JVal.str t), some ty =>
    if ty = ("") then none
    else some { type := ty, text := t, markups := p.markups.getD [] }
  | _, _ => none

/-- Modelled from the spec: the file replace.js implementing Serialize#replace
is not under src/.  Per spec section 4.4, for one match occupying
[matchStart, matchEnd) in the text, replaced by the text repl: a markup end
lying inside (matchStart, matchEnd] is pulled back to matchStart, a markup
start lying inside [matchStart, matchEnd) is pushed to matchEnd, a markup whose
truncated range is empty is dropped, and afterwards every position at or after
matchEnd is shifted by the length difference of the replacement. -/
def Serialize.replace (s : Serialize) (matchStart matchEnd : Nat) (repl : List Char) : Serialize :=
  let delta : Int := (repl.length : Int) - ((matchEnd : Int) - (matchStart : Int))
  let shift : Int → Int := fun pos => if (matchEnd : Int) ≤ pos then pos + delta else pos
  { type := s.type,
    text := s.text.take matchStart ++ repl ++ s.text.drop matchEnd,
    markups := s.markups.filterMap (fun m =>
      let s1 : Int := if (matchStart : Int) ≤ m.start ∧ m.start < (matchEnd : Int)
                      then (matchEnd : Int) else m.start
      let e1 : Int := if (matchStart : Int) < m.«end» ∧ m.«end» ≤ (matchEnd : Int)
                      then (matchStart : Int) else m.«end»
      if e1 ≤ s1 then none
      else some { type := m.type, start := shift s1, «end» := shift e1, href := m.href }) }

/-- Non-strict ordering of markups by the triple (type, start, end), the order
Serialize#addMarkup maintains (serialize.js lines 44-47). -/
def mle (a b : Markup) : Prop :=
  a.type < b.type ∨ (a.type = b.type ∧
    (a.start < b.start ∨ (a.start = b.start ∧ a.«end» ≤ b.«end»)))

instance (a b : Markup) : Decidable (mle a b) := by
  unfold mle; exact inferInstance

/-- Strict ordering of markups by the triple (type, start, end). -/
def mlt (a b : Markup) : Prop :=
  a.type < b.type ∨ (a.type = b.type ∧
    (a.start < b.start ∨ (a.start = b.start ∧ a.«end» < b.«end»)))

instance (a b : Markup) : Decidable (mlt a b) := by
  unfold mlt; exact inferInstance

/-- Well-formedness of a serialization as stated by the spec's data model:
every markup range is non-empty and lies within the text. -/
def Serialize.WF (s : Serialize) : Prop :=
  ∀ m ∈ s.markups, 0 ≤ m.start ∧ m.start < m.«end» ∧ m.«end» ≤ (s.length : Int)

instance (s : Serialize) : Decidable s.WF := by
  unfold Serialize.WF; exact inferInstance

/-- Separation of same-type markups: in list order, a same-type pair is
strictly apart (the first ends before the second starts), the normalized state
the mergeAdjacent pass establishes. -/
def sepTypes (a b : Markup) : Prop := a.type = b.type → a.«end» < b.start

instance (a b : Markup) : Decidable (sepTypes a b) := by
  unfold sepTypes; exact inferInstance

/-- Pieces into which a markup falls when the text is cut at position k: a
markup entirely on one side is kept whole, a markup spanning the cut is split
into its two halves.  Used to state what the substr/append round trip
reassembles. -/
def piecesAt (k : Int) (m : Markup) : List Markup :=
  if m.«end» ≤ k then [m]
  else if k ≤ m.start then [m]
  else [⟨m.type, m.start, k, m.href⟩, ⟨m.type, k, m.«end», m.href⟩]

/-! Basic order lemmas. -/

theorem mle_trans {a b c : Markup} (h1 : mle a b) (h2 : mle b c) : mle a c := by
  unfold mle at *; omega

theorem mlt_of_mle_of_ne {a b : Markup}
    (h1 : mle a b)
    (h2 : ¬ (a.type = b.type ∧ a.start = b.start ∧ a.«end» = b.«end»)) : mlt a b := by
  unfold mle at h1; unfold mlt; omega

theorem mle_of_mlt {a b : Markup} (h : mlt a b) : mle a b := by
  unfold mlt at h; unfold mle; omega

theorem mlt_asymm {a b : Markup} (h1 : mlt a b) (h2 : mlt b a) : False := by
  unfold mlt at *; omega

instance : IsAntisymm Markup mlt where
  antisymm _ _ h1 h2 := (mlt_asymm h1 h2).elim

theorem keys_ne_symm {a b : Markup}
    (h : ¬ (a.type = b.type ∧ a.start = b.start ∧ a.«end» = b.«end»)) :
    ¬ (b.type = a.type ∧ b.start = a.start ∧ b.«end» = a.«end») := by
  omega

theorem keys_ne_of_mlt {a b : Markup} (h : mlt a b) :
    ¬ (a.type = b.type ∧ a.start = b.start ∧ a.«end» = b.«end») := by
  unfold mlt at h; omega

/-! Small list facts. -/

theorem head_of_dropWhile {α : Type} (p : α → Bool) (l : List α) (h : α) (tl : List α)
    (he : l.dropWhile p = h :: tl) : p h = false := by
  induction l with
  | nil => simp at he
  | cons a l ih =>
    rw [List.dropWhile_cons] at he
    split at he
    · exact ih he
    · cases he; simp_all

/-! Characterizations of the addMarkup loop conditions. -/

theorem amc1_true {t m : Markup} (h : amc1 t m = true) : m.type < t.type := by
  simpa [amc1] using h

theorem amc1_false {t m : Markup} (h : amc1 t m = false) : t.type ≤ m.type := by
  simp [amc1] at h; omega

theorem amc2_true {t m : Markup} (h : amc2 t m = true) :
    t.type = m.type ∧ m.start < t.start := by
  simp [amc2] at h; omega

theorem amc2_false {t m : Markup} (h : amc2 t m = false) :
    t.type = m.type → t.start ≤ m.start := by
  simp [amc2] at h; omega

theorem amc3_true {t m : Markup} (h : amc3 t m = true) :
    t.type = m.type ∧ t.start = m.start ∧ m.«end» < t.«end» := by
  simp [amc3] at h; omega

theorem amc3_false {t m : Markup} (h : amc3 t m = false) :
    t.type = m.type → t.start = m.start → t.«end» ≤ m.«end» := by
  simp [amc3] at h; omega

/-! Sortedness preservation of the addMarkup insertion. -/

theorem addMarkupList_decomp (ms : List Markup) (t : Markup) :
    ms.takeWhile (amc1 t) ++
      ((ms.dropWhile (amc1 t)).takeWhile (amc2 t) ++
        (((ms.dropWhile (amc1 t)).dropWhile (amc2 t)).takeWhile (amc3 t) ++
          ((ms.dropWhile (amc1 t)).dropWhile (amc2 t)).dropWhile (amc3 t))) = ms := by
  rw [List.takeWhile_append_dropWhile, List.takeWhile_append_dropWhile,
    List.takeWhile_append_dropWhile]

theorem mle_t_of_blocked {t h3 : Markup}
    (A3 : List Markup) (A2 : List Markup)
    (hq3 : ∀ q ∈ A3, amc3 t q = true ∧ mle q h3)
    (hq2 : ∀ q ∈ A2, amc2 t q = true ∧ mle q h3)
    (hc3 : amc3 t h3 = false)
    (hc2 : A3 = [] → amc2 t h3 = false)
    (hc1 : A3 = [] → A2 = [] → amc1 t h3 = false) : mle t h3 := by
  rcases A3 with _ | ⟨q3, A3x⟩
  · rcases A2 with _ | ⟨q2, A2x⟩
    · have h1 := amc1_false (hc1 rfl rfl)
      have h2 := amc2_false (hc2 rfl)
      have h3f := amc3_false hc3
      unfold mle; omega
    · obtain ⟨hq, hle⟩ := hq2 q2 (by simp)
      have ht := amc2_true hq
      have h2 := amc2_false (hc2 rfl)
      have h3f := amc3_false hc3
      unfold mle at hle ⊢; omega
  · obtain ⟨hq, hle⟩ := hq3 q3 (by simp)
    have ht := amc3_true hq
    have h3f := amc3_false hc3
    unfold mle at hle ⊢; omega

theorem addMarkupList_sorted (ms : List Markup) (t : Markup)
    (hms : List.Pairwise mle ms) : List.Pairwise mle (addMarkupList ms t) := by
  have hdec := addMarkupList_decomp ms t
  rw [addMarkupList]
  generalize hA1 : ms.takeWhile (amc1 t) = A1 at *
  generalize hR1 : ms.dropWhile (amc1 t) = r1 at *
  generalize hA2 : r1.takeWhile (amc2 t) = A2 at *
  generalize hR2 : r1.dropWhile (amc2 t) = r2 at *
  generalize hA3 : r2.takeWhile (amc3 t) = A3 at *
  generalize hR3 : r2.dropWhile (amc3 t) = r3 at *
  have hr1eq : A2 ++ r2 = r1 := by
    rw [← hA2, ← hR2]; exact List.takeWhile_append_dropWhile _ _
  have hr2eq : A3 ++ r3 = r2 := by
    rw [← hA3, ← hR3]; exact List.takeWhile_append_dropWhile _ _
  rw [← hdec] at hms
  rw [List.pairwise_append, List.pairwise_append, List.pairwise_append] at hms
  obtain ⟨hpA1, ⟨hpA2, ⟨hpA3, hpR3, hA3R3⟩, hA2r⟩, hA1r⟩ := hms
  -- every element of the scanned prefixes is strictly below t in the order
  have hA1t : ∀ a ∈ A1, mle a t := by
    intro a ha
    have h := amc1_true (List.mem_takeWhile_imp (p := amc1 t) (by rw [hA1]; exact ha))
    unfold mle; omega
  have hA2t : ∀ a ∈ A2, mle a t := by
    intro a ha
    have h := amc2_true (List.mem_takeWhile_imp (p := amc2 t) (by rw [hA2]; exact ha))
    unfold mle; omega
  have hA3t : ∀ a ∈ A3, mle a t := by
    intro a ha
    have h := amc3_true (List.mem_takeWhile_imp (p := amc3 t) (by rw [hA3]; exact ha))
    unfold mle; omega
  -- t is below the remainder of the list
  have htr3 : ∀ b ∈ r3, mle t b := by
    rcases hr3e : r3 with _ | ⟨h3, tl⟩
    · simp
    · have hh3 : mle t h3 := by
        refine mle_t_of_blocked A3 A2 ?_ ?_ ?_ ?_ ?_
        · intro q hq
          refine ⟨List.mem_takeWhile_imp (p := amc3 t) (by rw [hA3]; exact hq), ?_⟩
          exact hA3R3 q hq h3 (by rw [hr3e]; simp)
        · intro q hq
          refine ⟨List.mem_takeWhile_imp (p := amc2 t) (by rw [hA2]; exact hq), ?_⟩
          refine hA2r q hq h3 ?_
          exact List.mem_append.mpr (Or.inr (by rw [hr3e]; simp))
        · exact head_of_dropWhile (amc3 t) r2 h3 tl (by rw [hR3]; exact hr3e)
        · intro hA3nil
          have hr2c : r2 = h3 :: tl := by rw [← hr2eq, hA3nil, hr3e]; rfl
          exact head_of_dropWhile (amc2 t) r1 h3 tl (by rw [hR2]; exact hr2c)
        · intro hA3nil hA2nil
          have hr2c : r2 = h3 :: tl := by rw [← hr2eq, hA3nil, hr3e]; rfl
          have hr1c : r1 = h3 :: tl := by rw [← hr1eq, hA2nil, hr2c]; rfl
          exact head_of_dropWhile (amc1 t) ms h3 tl (by rw [hR1]; exact hr1c)
      rw [hr3e] at hpR3
      intro b hb
      rcases List.mem_cons.mp hb with rfl | hb
      · exact hh3
      · exact mle_trans hh3 ((List.pairwise_cons.mp hpR3).1 b hb)
  -- assemble the sorted insertion
  rw [List.pairwise_append, List.pairwise_append, List.pairwise_append, List.pairwise_cons]
  refine ⟨hpA1, ⟨hpA2, ⟨hpA3, ⟨htr3, hpR3⟩, ?_⟩, ?_⟩, ?_⟩
  · intro a ha b hb
    rcases List.mem_cons.mp hb with rfl | hb
    · exact hA3t a ha
    · exact hA3R3 a ha b hb
  · intro a ha b hb
    rcases List.mem_append.mp hb with hb | hb
    · exact hA2r a ha b (List.mem_append.mpr (Or.inl hb))
    · rcases List.mem_cons.mp hb with rfl | hb
      · exact hA2t a ha
      · exact hA2r a ha b (List.mem_append.mpr (Or.inr hb))
  · intro a ha b hb
    rcases List.mem_append.mp hb with hb | hb
    · exact hA1r a ha b (List.mem_append.mpr (Or.inl hb))
    · rcases List.mem_append.mp hb with hb | hb
      · exact hA1r a ha b (List.mem_append.mpr (Or.inr (List.mem_append.mpr (Or.inl hb))))
      · rcases List.mem_cons.mp hb with rfl | hb
        · exact hA1t a ha
        · exact hA1r a ha b (List.mem_append.mpr (Or.inr (List.mem_append.mpr (Or.inr hb))))

/-! Permutation facts: the insertion splice only repositions the new markup. -/

theorem addMarkupList_perm (ms : List Markup) (t : Markup) :
    List.Perm (addMarkupList ms t) (t :: ms) := by
  have hdec := addMarkupList_decomp ms t
  rw [addMarkupList]
  generalize hA1 : ms.takeWhile (amc1 t) = A1 at *
  generalize hR1 : ms.dropWhile (amc1 t) = r1 at *
  generalize hA2 : r1.takeWhile (amc2 t) = A2 at *
  generalize hR2 : r1.dropWhile (amc2 t) = r2 at *
  generalize hA3 : r2.takeWhile (amc3 t) = A3 at *
  generalize hR3 : r2.dropWhile (amc3 t) = r3 at *
  have p3 : List.Perm (A3 ++ t :: r3) (t :: (A3 ++ r3)) := List.perm_middle
  have p2 : List.Perm (A2 ++ (A3 ++ t :: r3)) (t :: (A2 ++ (A3 ++ r3))) :=
    (List.Perm.append_left A2 p3).trans List.perm_middle
  have p1 : List.Perm (A1 ++ (A2 ++ (A3 ++ t :: r3))) (t :: (A1 ++ (A2 ++ (A3 ++ r3)))) :=
    (List.Perm.append_left A1 p2).trans List.perm_middle
  rw [hdec] at p1
  exact p1

theorem foldl_addMarkup_perm (P : Markup → Prop) [DecidablePred P] (f : Markup → Markup)
    (l : List Markup) (acc : List Markup) :
    List.Perm
      (l.foldl (fun acc m => if P m then addMarkupList acc (f m) else acc) acc)
      (acc ++ l.filterMap (fun m => if P m then some (f m) else none)) := by
  induction l generalizing acc with
  | nil => simp
  | cons m rest ih =>
    by_cases hm : P m
    · simp only [List.foldl_cons, List.filterMap_cons, hm, if_pos]
      refine (ih (addMarkupList acc (f m))).trans ?_
      refine (List.Perm.append_right _ (addMarkupList_perm acc (f m))).trans ?_
      exact List.perm_middle.symm
    · simp only [List.foldl_cons, List.filterMap_cons, hm, if_neg, not_false_iff]
      exact ih acc

theorem foldl_addMarkup_perm_map (f : Markup → Markup) (l : List Markup) (acc : List Markup) :
    List.Perm (l.foldl (fun acc m => addMarkupList acc (f m)) acc) (acc ++ l.map f) := by
  induction l generalizing acc with
  | nil => simp
  | cons m rest ih =>
    simp only [List.foldl_cons, List.map_cons]
    refine (ih (addMarkupList acc (f m))).trans ?_
    refine (List.Perm.append_right _ (addMarkupList_perm acc (f m))).trans ?_
    exact List.perm_middle.symm

theorem foldl_addMarkup_sorted (P : Markup → Prop) [DecidablePred P] (f : Markup → Markup)
    (l : List Markup) (acc : List Markup) (hacc : List.Pairwise mle acc) :
    List.Pairwise mle
      (l.foldl (fun acc m => if P m then addMarkupList acc (f m) else acc) acc) := by
  induction l generalizing acc with
  | nil => exact hacc
  | cons m rest ih =>
    simp only [List.foldl_cons]
    by_cases hm : P m
    · rw [if_pos hm]; exact ih _ (addMarkupList_sorted acc (f m) hacc)
    · rw [if_neg hm]; exact ih _ hacc

theorem foldl_addMarkup_sorted_map (f : Markup → Markup)
    (l : List Markup) (acc : List Markup) (hacc : List.Pairwise mle acc) :
    List.Pairwise mle (l.foldl (fun acc m => addMarkupList acc (f m)) acc) := by
  induction l generalizing acc with
  | nil => exact hacc
  | cons m rest ih =>
    simp only [List.foldl_cons]
    exact ih _ (addMarkupList_sorted acc (f m) hacc)

/-! Lemmas about the spec-modelled mergeAdjacent pass. -/

/-- Two consecutive markups that the adjacent pass must not merge: different
types, or strictly separated ranges. -/
def noFuse (a b : Markup) : Prop := ¬ (a.type = b.type ∧ b.start ≤ a.«end»)

instance (a b : Markup) : Decidable (noFuse a b) := by
  unfold noFuse; exact inferInstance

theorem mergeRun_head (cur : Markup) (l : List Markup) (h : List.Pairwise mle (cur :: l)) :
    ∃ e tl, mergeRun cur l = ⟨cur.type, cur.start, e, cur.href⟩ :: tl := by
  induction l generalizing cur with
  | nil =>
    exact ⟨cur.«end», [], rfl⟩
  | cons m rest ih =>
    rw [List.pairwise_cons] at h
    obtain ⟨hcur, hrest⟩ := h
    rw [mergeRun]
    split
    · rename_i hfuse
      have hcm : mle cur m := hcur m (by simp)
      have hmin : min cur.start m.start = cur.start := by
        unfold mle at hcm; omega
      have hnext : List.Pairwise mle
          ({ type := cur.type, start := min cur.start m.start,
             «end» := max cur.«end» m.«end», href := cur.href } :: rest) := by
        rw [List.pairwise_cons]
        refine ⟨?_, (List.pairwise_cons.mp hrest).2⟩
        intro b hb
        have h1 : mle cur b := hcur b (by simp [hb])
        have h2 : mle m b := (List.pairwise_cons.mp hrest).1 b hb
        unfold mle at h1 h2 ⊢
        dsimp only
        omega
      obtain ⟨e, tl, he⟩ := ih _ hnext
      refine ⟨e, tl, ?_⟩
      rw [he]
      dsimp only
      rw [hmin]
    · obtain ⟨e, tl, he⟩ := ih m hrest
      exact ⟨cur.«end», mergeRun m rest, rfl⟩

theorem mergeRun_chain (cur : Markup) (l : List Markup) (h : List.Pairwise mle (cur :: l)) :
    List.Chain' noFuse (mergeRun cur l) := by
  induction l generalizing cur with
  | nil => simp [mergeRun]
  | cons m rest ih =>
    rw [List.pairwise_cons] at h
    obtain ⟨hcur, hrest⟩ := h
    rw [mergeRun]
    split
    · rename_i hfuse
      have hcm : mle cur m := hcur m (by simp)
      refine ih _ ?_
      rw [List.pairwise_cons]
      refine ⟨?_, (List.pairwise_cons.mp hrest).2⟩
      intro b hb
      have h1 : mle cur b := hcur b (by simp [hb])
      have h2 : mle m b := (List.pairwise_cons.mp hrest).1 b hb
      unfold mle at h1 h2 ⊢
      dsimp only
      omega
    · rename_i hnof
      obtain ⟨e, tl, he⟩ := mergeRun_head m rest hrest
      rw [he]
      rw [List.chain'_cons]
      refine ⟨?_, he ▸ ih m hrest⟩
      unfold noFuse
      simp only [not_and] at hnof ⊢
      intro hty
      exact hnof hty

theorem mergeRun_of_chain (cur : Markup) (l : List Markup)
    (h : List.Chain' noFuse (cur :: l)) : mergeRun cur l = cur :: l := by
  induction l generalizing cur with
  | nil => rfl
  | cons m rest ih =>
    rw [List.chain'_cons] at h
    obtain ⟨hnf, hrest⟩ := h
    rw [mergeRun]
    rw [if_neg hnf]
    rw [ih m hrest]

theorem mergeAdjacentList_chain (l : List Markup) (h : List.Pairwise mle l) :
    List.Chain' noFuse (mergeAdjacentList l) := by
  cases l with
  | nil => simp [mergeAdjacentList]
  | cons m rest => exact mergeRun_chain m rest h

theorem mergeAdjacentList_of_chain (l : List Markup) (h : List.Chain' noFuse l) :
    mergeAdjacentList l = l := by
  cases l with
  | nil => rfl
  | cons m rest => exact mergeRun_of_chain m rest h

theorem mergeAdjacentList_idem (l : List Markup) (h : List.Pairwise mle l) :
    mergeAdjacentList (mergeAdjacentList l) = mergeAdjacentList l :=
  mergeAdjacentList_of_chain _ (mergeAdjacentList_chain l h)

/-! Facts about the substr wrap-around loop. -/

theorem wrapStartAux_nonneg (len : Nat) (hlen : 1 ≤ len) :
    ∀ (fuel : Nat) (start : Int), -start ≤ (fuel : Int) → 0 ≤ wrapStartAux len fuel start := by
  intro fuel
  induction fuel with
  | zero => intro start h; simp only [wrapStartAux]; omega
  | succ n ih =>
    intro start h
    rw [wrapStartAux]
    split
    · exact ih _ (by push_cast at h ⊢; omega)
    · omega

theorem wrapStart_nonneg (len : Nat) (start : Int) (hlen : 1 ≤ len) :
    0 ≤ wrapStart len start := by
  refine wrapStartAux_nonneg len hlen _ start ?_
  omega

theorem wrapStart_of_nonneg (len : Nat) (start : Int) (h : 0 ≤ start) :
    wrapStart len start = start := by
  have h0 : (-start).toNat = 0 := by omega
  rw [wrapStart, h0, wrapStartAux]

theorem wrapStart_idem (len : Nat) (start : Int) (hlen : 1 ≤ len) :
    wrapStart len (wrapStart len start) = wrapStart len start :=
  wrapStart_of_nonneg len _ (wrapStart_nonneg len start hlen)

theorem substr_start_resolve (s : Serialize) (st1 st2 : Int) (l? : Option Int)
    (he : wrapStart s.text.length st1 = wrapStart s.text.length st2) :
    s.substr st1 l? = s.substr st2 l? := by
  rw [Serialize.substr, Serialize.substr, he]

/-! Claim theorems for the markup-editing operations. -/

/-- C2: starting from a Serialization whose markups list is sorted ascending by
the triple (type, start, end) — in particular an empty list — after every call
in any sequence of addMarkup calls the markups list is again sorted ascending
by (type, start, end).  The sequence is quantified, so the statement applies
after every prefix of calls. -/
theorem addMarkup_keeps_sorted (s : Serialize) (ts : List Markup)
    (h : List.Pairwise mle s.markups) :
    List.Pairwise mle ((ts.foldl Serialize.addMarkup s).markups) := by
  induction ts generalizing s with
  | nil => exact h
  | cons t ts ih => exact ih _ (addMarkupList_sorted _ t h)

theorem addMarkup_keeps_sorted_witness :
    List.Pairwise mle
      (([⟨1, 0, 1, none⟩, ⟨0, 2, 3, none⟩, ⟨1, 0, 5, none⟩,
         ⟨1, 0, 1, some ("x")⟩] : List Markup).foldl
        Serialize.addMarkup ⟨("p"), [('a')], []⟩).markups :=
  addMarkup_keeps_sorted ⟨("p"), [('a')], []⟩ _ (by decide)

/-- C1: the claim says that after removeMarkup no same-type markup overlaps
the removed range, even when the markups list held several overlapping
same-type markups.  The code violates this: on the sorted list
[{0,0,10}, {0,5,15}], removing {0,3,7} splits the fully containing first
markup and returns immediately (serialize.js line 159), leaving {0,5,15},
which still overlaps [3,7).  This theorem evaluates the code at that input
and exhibits the surviving overlap. -/
theorem removeMarkup_early_return_keeps_overlap :
    (Serialize.removeMarkup ⟨("p"), ("0123456789abcde").toList,
        [⟨0, 0, 10, none⟩, ⟨0, 5, 15, none⟩]⟩ ⟨0, 3, 7, none⟩).markups =
      [⟨0, 0, 3, none⟩, ⟨0, 7, 10, none⟩, ⟨0, 5, 15, none⟩] ∧
    ∃ m ∈ (Serialize.removeMarkup ⟨("p"), ("0123456789abcde").toList,
        [⟨0, 0, 10, none⟩, ⟨0, 5, 15, none⟩]⟩ ⟨0, 3, 7, none⟩).markups,
      m.type = 0 ∧ m.start < 7 ∧ 3 < m.«end» := by decide

/-- C4: on the Serialization with text "Some bold and italic text" and markups
{bold,5,9} and {italic,14,20} with bold before italic in the type order,
removing {bold,6,8} splits the containing bold markup into {bold,5,6} and
{bold,8,9} and leaves the italic markup untouched.  The concrete numeric
values of the bold and italic type identifiers are not in the sources, so they
are quantified, constrained only by their order. -/
theorem removeMarkup_contained_split (b i : Int) (hbi : b < i) :
    Serialize.removeMarkup
        ⟨("p"), ("Some bold and italic text").toList, [⟨b, 5, 9, none⟩, ⟨i, 14, 20, none⟩]⟩
        ⟨b, 6, 8, none⟩ =
      ⟨("p"), ("Some bold and italic text").toList,
        [⟨b, 5, 6, none⟩, ⟨b, 8, 9, none⟩, ⟨i, 14, 20, none⟩]⟩ := by
  unfold Serialize.removeMarkup removeMarkupList
  norm_num

theorem removeMarkup_contained_split_witness :
    Serialize.removeMarkup
        ⟨("p"), ("Some bold and italic text").toList, [⟨1, 5, 9, none⟩, ⟨2, 14, 20, none⟩]⟩
        ⟨1, 6, 8, none⟩ =
      ⟨("p"), ("Some bold and italic text").toList,
        [⟨1, 5, 6, none⟩, ⟨1, 8, 9, none⟩, ⟨2, 14, 20, none⟩]⟩ :=
  removeMarkup_contained_split 1 2 (by norm_num)

/-- C5: on a Serialization with positive length, substr resolves a negative
start by adding the text length while the result is still negative, and the
clamping of the resolved index to zero is expressed by the max; in particular
substr(-3) on a 10-character text equals substr(7). -/
theorem substr_negative_start_wraps (s : Serialize) (st : Int) (l? : Option Int)
    (h : 0 < s.length) :
    s.substr st l? = s.substr (max 0 (wrapStart s.length st)) l? ∧
      (s.length = 10 → s.substr (-3) l? = s.substr 7 l?) := by
  have hlen : 1 ≤ s.text.length := h
  constructor
  · refine substr_start_resolve s st _ l? ?_
    have h1 : 0 ≤ wrapStart s.text.length st := wrapStart_nonneg _ _ hlen
    have h2 : max 0 (wrapStart s.length st) = wrapStart s.text.length st := max_eq_right h1
    rw [h2, wrapStart_of_nonneg s.text.length (wrapStart s.text.length st) h1]
  · intro h10
    refine substr_start_resolve s (-3) 7 l? ?_
    have h10t : s.text.length = 10 := h10
    rw [h10t]
    decide

theorem substr_negative_start_wraps_witness :
    Serialize.substr ⟨("p"), ("0123456789").toList, []⟩ (-3) none =
      Serialize.substr ⟨("p"), ("0123456789").toList, []⟩ 7 none :=
  (substr_negative_start_wraps ⟨("p"), ("0123456789").toList, []⟩ (-3) none (by decide)).2
    (by decide)

/-- C7: the mergeAdjacent pass is idempotent: on a Serialization whose markups
are sorted by (type, start, end) — the ordering every operation of the library
maintains — merging twice gives the same Serialization as merging once.  The
pass itself is modelled from the spec, adjacent.js not being under src/. -/
theorem mergeAdjacent_idempotent (s : Serialize) (h : List.Pairwise mle s.markups) :
    s.mergeAdjacent.mergeAdjacent = s.mergeAdjacent := by
  have hi := mergeAdjacentList_idem s.markups h
  show ({ type := s.type, text := s.text,
          markups := mergeAdjacentList (mergeAdjacentList s.markups) } : Serialize) =
    { type := s.type, text := s.text, markups := mergeAdjacentList s.markups }
  rw [hi]

theorem mergeAdjacent_idempotent_witness :
    (Serialize.mergeAdjacent (Serialize.mergeAdjacent
        ⟨("p"), ("abcdef").toList, [⟨1, 0, 2, none⟩, ⟨1, 2, 4, none⟩, ⟨2, 1, 3, none⟩]⟩)) =
      Serialize.mergeAdjacent
        ⟨("p"), ("abcdef").toList, [⟨1, 0, 2, none⟩, ⟨1, 2, 4, none⟩, ⟨2, 1, 3, none⟩]⟩ :=
  mergeAdjacent_idempotent _ (by decide)

/-- C8: on the Serialization with text "One... two" and markup {italic,5,10},
replacing the match "..." at [3,6) by the one-character ellipsis yields text
"One… two" and the markup {italic,4,8}: the truncated start is pushed to the
match end and both positions at or after the match end are shifted by the
length difference -2.  The replace pass is modelled from the spec, replace.js
not being under src/; the numeric italic identifier is quantified. -/
theorem replace_ellipsis_scenario (it : Int) :
    Serialize.replace ⟨("p"), ("One... two").toList, [⟨it, 5, 10, none⟩]⟩ 3 6 ("…").toList =
      ⟨("p"), ("One… two").toList, [⟨it, 4, 8, none⟩]⟩ := by
  unfold Serialize.replace
  norm_num [List.filterMap_cons]

/-- C9: fromJSON fails exactly when the payload's text field is not a string
or its type field is missing or empty; on success it returns a Serialization
carrying the payload's type and text, with the markups defaulting to the empty
list when the field is absent. -/
theorem fromJSON_requires_text_and_type (p : Payload) :
    ((Serialize.fromJSON p).isSome ↔
      ((∃ t, p.text = some (JVal.str t)) ∧ ∃ ty, p.type = some ty ∧ ty ≠ (""))) ∧
    (∀ t ty, p.text = some (JVal.str t) → p.type = some ty → ty ≠ ("") →
      Serialize.fromJSON p = some ⟨ty, t, p.markups.getD []⟩) := by
  obtain ⟨pt, pty, pm⟩ := p
  constructor
  · rcases pt with _ | v
    · simp [Serialize.fromJSON]
    · rcases v with t | _
      · rcases pty with _ | ty
        · simp [Serialize.fromJSON]
        · by_cases hty : ty = ("")
          · subst hty; simp [Serialize.fromJSON]
          · simp [Serialize.fromJSON, hty]
      · simp [Serialize.fromJSON]
  · intro t ty h1 h2 h3
    simp only at h1 h2
    subst h1; subst h2
    simp [Serialize.fromJSON, h3]

theorem fromJSON_requires_text_and_type_witness :
    Serialize.fromJSON ⟨some (JVal.str [('h')]), some ("p"), none⟩ =
      some ⟨("p"), [('h')], []⟩ :=
  (fromJSON_requires_text_and_type ⟨some (JVal.str [('h')]), some ("p"), none⟩).2
    [('h')] ("p") rfl rfl (by decide)

/-! Permutation and sortedness views of the substr markup loop. -/

theorem substrMarkups_perm (w e : Int) (ms : List Markup) :
    List.Perm (substrMarkups w e ms)
      (ms.filterMap (fun m =>
        if m.start < e ∧ m.«end» > w then some (substrPiece w e m) else none)) :=
  foldl_addMarkup_perm (fun m => m.start < e ∧ m.«end» > w) (substrPiece w e) ms []

theorem substrMarkups_sorted (w e : Int) (ms : List Markup) :
    List.Pairwise mle (substrMarkups w e ms) :=
  foldl_addMarkup_sorted (fun m => m.start < e ∧ m.«end» > w) (substrPiece w e) ms []
    (by simp)

/-- C10: substr preserves well-formedness: on a Serialization all of whose
markups satisfy 0 <= start < end <= length, every markup of the result of
substr with any start and optional length argument again satisfies
0 <= start < end <= length of the result, and the result's length is the
length of its text. -/
theorem substr_preserves_wf (s : Serialize) (st : Int) (l? : Option Int) (hwf : s.WF) :
    (s.substr st l?).WF ∧ (s.substr st l?).length = (s.substr st l?).text.length := by
  refine ⟨?_, rfl⟩
  rw [Serialize.substr]
  split
  · intro m hm
    simp at hm
  · rename_i hguard
    rw [not_or] at hguard
    obtain ⟨hlen0, hlarg⟩ := hguard
    have hlen1 : 1 ≤ s.text.length := Nat.one_le_iff_ne_zero.mpr hlen0
    have hw0 : 0 ≤ wrapStart s.text.length st := wrapStart_nonneg _ _ hlen1
    generalize hw : wrapStart s.text.length st = w at *
    generalize hL : substrResolveLen s.text.length w l? = L at *
    have hcase : L = (s.text.length : Int) - w ∨ (1 ≤ L ∧ w + L ≤ (s.text.length : Int)) := by
      rcases l? with _ | l
      · simp [substrResolveLen] at hL
        omega
      · simp [lenArgNonpos] at hlarg
        by_cases hc : w + l > (s.text.length : Int)
        · rw [substrResolveLen, if_pos hc] at hL
          omega
        · rw [substrResolveLen, if_neg hc] at hL
          omega
    intro m hm
    dsimp only at hm
    dsimp only [Serialize.length]
    rw [(substrMarkups_perm w (w + L) s.markups).mem_iff, List.mem_filterMap] at hm
    obtain ⟨a, ha, hval⟩ := hm
    have hwa := hwf a ha
    dsimp only [Serialize.length] at hwa
    split at hval
    · rename_i hPa
      have hmv : substrPiece w (w + L) a = m := Option.some.inj hval
      subst hmv
      rw [List.length_take, List.length_drop]
      unfold substrPiece
      dsimp only
      split_ifs <;> omega
    · exact absurd hval (by simp)

theorem substr_preserves_wf_witness :
    (Serialize.substr ⟨("p"), ("abcde").toList, [⟨1, 1, 4, none⟩]⟩ 2 (some 10)).WF ∧
      (Serialize.substr ⟨("p"), ("abcde").toList, [⟨1, 1, 4, none⟩]⟩ 2 (some 10)).length =
        (Serialize.substr ⟨("p"), ("abcde").toList, [⟨1, 1, 4, none⟩]⟩ 2 (some 10)).text.length :=
  substr_preserves_wf ⟨("p"), ("abcde").toList, [⟨1, 1, 4, none⟩]⟩ 2 (some 10) (by decide)

/-! Uniq­ueness of sorted rebuilds: a permutation of a strictly sorted list that
is itself sorted is that list. -/

theorem pairwise_mlt_of_perm {l T : List Markup} (hperm : List.Perm l T)
    (hl : List.Pairwise mle l) (hT : List.Pairwise mlt T) : List.Pairwise mlt l := by
  have hkT : List.Pairwise (fun a b : Markup =>
      ¬ (a.type = b.type ∧ a.start = b.start ∧ a.«end» = b.«end»)) T :=
    hT.imp keys_ne_of_mlt
  have hkl : List.Pairwise (fun a b : Markup =>
      ¬ (a.type = b.type ∧ a.start = b.start ∧ a.«end» = b.«end»)) l :=
    (hperm.pairwise_iff (fun h => keys_ne_symm h)).mpr hkT
  exact (hl.and hkl).imp (fun h => mlt_of_mle_of_ne h.1 h.2)

theorem fold_eq_sorted_target {l T : List Markup} (hperm : List.Perm l T)
    (hl : List.Pairwise mle l) (hT : List.Pairwise mlt T) : l = T :=
  List.eq_of_perm_of_sorted hperm (pairwise_mlt_of_perm hperm hl hT) hT

theorem filterMap_id_of (g : Markup → Option Markup) (l : List Markup)
    (h : ∀ a ∈ l, g a = some a) : l.filterMap g = l := by
  induction l with
  | nil => rfl
  | cons a l ih =>
    rw [List.filterMap_cons, h a (by simp)]
    rw [ih (fun b hb => h b (by simp [hb]))]

theorem substrPiece_id (len : Int) (a : Markup) (h1 : 0 ≤ a.start) (h2 : a.«end» ≤ len) :
    substrPiece 0 len a = a := by
  obtain ⟨ty, st, en, hr⟩ := a
  unfold substrPiece
  dsimp only at h1 h2 ⊢
  simp only [Markup.mk.injEq]
  refine ⟨trivial, ?_, ?_, trivial⟩
  · split_ifs <;> omega
  · split_ifs <;> omega

theorem substrMarkups_full (len : Int) (ms : List Markup)
    (hwfm : ∀ m ∈ ms, 0 ≤ m.start ∧ m.start < m.«end» ∧ m.«end» ≤ len)
    (hsort : List.Pairwise mlt ms) :
    substrMarkups 0 len ms = ms := by
  have hfm : ms.filterMap (fun m =>
      if m.start < len ∧ m.«end» > 0 then some (substrPiece 0 len m) else none) = ms := by
    refine filterMap_id_of _ _ ?_
    intro a ha
    obtain ⟨h1, h2, h3⟩ := hwfm a ha
    rw [if_pos ⟨by omega, by omega⟩, substrPiece_id len a h1 h3]
  refine fold_eq_sorted_target ?_ (substrMarkups_sorted _ _ _) hsort
  have hp := substrMarkups_perm 0 len ms
  rw [hfm] at hp
  exact hp

/-- The substr(0) copy of a well-formed, strictly sorted Serialization is the
Serialization itself (serialize.js lines 282, 285: append delegates to
substr(0) to take an independent copy). -/
theorem substr_zero_copy (s : Serialize) (hwf : s.WF) (hsort : List.Pairwise mlt s.markups) :
    s.substr 0 none = s := by
  obtain ⟨sty, stx, sms⟩ := s
  unfold Serialize.WF at hwf
  dsimp only [Serialize.length] at hwf hsort ⊢
  by_cases h0 : stx.length = 0
  · have hnil : stx = [] := List.eq_nil_of_length_eq_zero h0
    subst hnil
    have hms : sms = [] := by
      cases sms with
      | nil => rfl
      | cons m ms =>
        have h := hwf m (by simp)
        dsimp at h
        omega
    subst hms
    rw [Serialize.substr, if_pos (by simp)]
  · rw [Serialize.substr, if_neg (by simp [lenArgNonpos, h0])]
    dsimp only
    have hw : wrapStart stx.length 0 = 0 := wrapStart_of_nonneg _ _ le_rfl
    rw [hw]
    have hL : substrResolveLen stx.length 0 none = (stx.length : Int) := by
      show (stx.length : Int) - 0 = (stx.length : Int)
      omega
    rw [hL]
    simp only [Serialize.mk.injEq]
    refine ⟨trivial, ?_, ?_⟩
    · have ht : ((0 : Int)).toNat = 0 := rfl
      rw [ht, List.drop_zero, Int.toNat_natCast, List.take_length]
    · rw [zero_add]
      exact substrMarkups_full _ _ hwf hsort

/-- C6: appending a non-empty plain string to a well-formed Serialization
whose markups are strictly sorted by (type, start, end) yields a copy whose
text is the old text followed by the string, in which exactly the markups
whose end equals the old length have their end moved to the new length and
every other markup is unchanged — the markup list is mapped element by
element, so no merge pass is applied. -/
theorem append_string_extends (s : Serialize) (str : List Char)
    (hwf : s.WF) (hsort : List.Pairwise mlt s.markups) (hne : str ≠ []) :
    s.appendString str =
      { type := s.type, text := s.text ++ str,
        markups := s.markups.map (fun m =>
          if m.«end» = (s.length : Int) then
            ⟨m.type, m.start, (s.length : Int) + (str.length : Int), m.href⟩
          else m) } := by
  have hc := substr_zero_copy s hwf hsort
  rw [Serialize.appendString, if_neg (by simp [hne]), hc]
  simp only [Serialize.mk.injEq]
  refine ⟨trivial, trivial, ?_⟩
  refine List.map_congr_left ?_
  intro m hm
  by_cases he : m.«end» = (s.length : Int)
  · rw [if_pos he, if_pos he]
    show Markup.mk m.type m.start (m.«end» + (str.length : Int)) m.href = _
    rw [he]
  · rw [if_neg he, if_neg he]

theorem append_string_extends_witness :
    Serialize.appendString ⟨("p"), ("12").toList, [⟨1, 1, 2, none⟩, ⟨2, 0, 1, none⟩]⟩
        ("345").toList =
      ⟨("p"), ("12345").toList, [⟨1, 1, 5, none⟩, ⟨2, 0, 1, none⟩]⟩ :=
  (append_string_extends ⟨("p"), ("12").toList, [⟨1, 1, 2, none⟩, ⟨2, 0, 1, none⟩]⟩
    ("345").toList (by decide) (by decide) (by decide)).trans (by decide)

/-! The substr/append round trip: pieces of the markup list cut at position k. -/

theorem Markup.ext_fields {a b : Markup} (h1 : a.type = b.type) (h2 : a.start = b.start)
    (h3 : a.«end» = b.«end») (h4 : a.href = b.href) : a = b := by
  cases a
  cases b
  simp_all

theorem piecesAt_mem (k : Int) (m p : Markup) (hwfm : m.start < m.«end»)
    (hp : p ∈ piecesAt k m) :
    p.type = m.type ∧ m.start ≤ p.start ∧ p.start < p.«end» ∧ p.«end» ≤ m.«end» := by
  unfold piecesAt at hp
  split_ifs at hp with h1 h2
  · rw [List.mem_singleton] at hp
    subst hp
    exact ⟨rfl, by omega, hwfm, by omega⟩
  · rw [List.mem_singleton] at hp
    subst hp
    exact ⟨rfl, by omega, hwfm, by omega⟩
  · simp only [List.mem_cons, List.mem_singleton, List.not_mem_nil, or_false] at hp
    rcases hp with rfl | rfl
    · exact ⟨rfl, by dsimp only; omega, by dsimp only; omega, by dsimp only; omega⟩
    · exact ⟨rfl, by dsimp only; omega, by dsimp only; omega, by dsimp only; omega⟩

theorem piecesAt_head (k : Int) (m : Markup) :
    ∃ tl hd, piecesAt k m = hd :: tl ∧ hd.type = m.type ∧ hd.start = m.start := by
  unfold piecesAt
  split_ifs
  · exact ⟨[], m, rfl, rfl, rfl⟩
  · exact ⟨[], m, rfl, rfl, rfl⟩
  · exact ⟨[⟨m.type, k, m.«end», m.href⟩], ⟨m.type, m.start, k, m.href⟩, rfl, rfl, rfl⟩

theorem pairwise_mlt_pieces (k : Int) (l : List Markup)
    (hwfm : ∀ m ∈ l, m.start < m.«end»)
    (hsort : List.Pairwise mle l) (hsep : List.Pairwise sepTypes l) :
    List.Pairwise mlt (l.flatMap (piecesAt k)) := by
  induction l with
  | nil => simp
  | cons m rest ih =>
    rw [List.flatMap_cons, List.pairwise_append]
    refine ⟨?_, ih (fun x hx => hwfm x (by simp [hx]))
      (List.pairwise_cons.mp hsort).2 (List.pairwise_cons.mp hsep).2, ?_⟩
    · have hm := hwfm m (by simp)
      unfold piecesAt
      split_ifs with h1 h2
      · simp
      · simp
      · refine List.pairwise_cons.mpr ⟨?_, by simp⟩
        intro p hp
        rw [List.mem_singleton] at hp
        subst hp
        unfold mlt
        dsimp only
        omega
    · intro p1 hp1 p2 hp2
      rw [List.mem_flatMap] at hp2
      obtain ⟨m2, hm2, hp2m⟩ := hp2
      have hb1 := piecesAt_mem k m p1 (hwfm m (by simp)) hp1
      have hb2 := piecesAt_mem k m2 p2 (hwfm m2 (by simp [hm2])) hp2m
      have hmle : mle m m2 := (List.pairwise_cons.mp hsort).1 m2 hm2
      have hsep2 : sepTypes m m2 := (List.pairwise_cons.mp hsep).1 m2 hm2
      unfold mlt
      unfold mle at hmle
      unfold sepTypes at hsep2
      omega

theorem perm_shuffle {α : Type} (x A y B : List α) :
    List.Perm ((x ++ A) ++ (y ++ B)) ((x ++ y) ++ (A ++ B)) := by
  rw [List.append_assoc, List.append_assoc, ← List.append_assoc A y B]
  refine List.Perm.append_left x ?_
  rw [← List.append_assoc y A B]
  exact List.Perm.append_right B List.perm_append_comm

theorem filterMap_cons_toList {α β : Type} (g : α → Option β) (a : α) (l : List α) :
    List.filterMap g (a :: l) = (g a).toList ++ List.filterMap g l := by
  cases hg : g a <;> simp [List.filterMap_cons, hg]

theorem substrPiece_left (k : Int) (m : Markup) (h1 : 0 ≤ m.start) (h2 : m.start < k)
    (h3 : k < m.«end») : substrPiece 0 k m = ⟨m.type, m.start, k, m.href⟩ := by
  refine Markup.ext_fields rfl ?_ ?_ rfl
  · show (if m.start > 0 then m.start - 0 else 0) = m.start
    split_ifs <;> omega
  · show (if m.«end» < k then m.«end» - 0 else k - 0) = k
    split_ifs <;> omega

theorem substrPiece_right_shift (k len : Int) (m : Markup) (h1 : k ≤ m.start)
    (h2 : m.start < m.«end») (h3 : m.«end» ≤ len) :
    (⟨(substrPiece k len m).type, (substrPiece k len m).start + k,
      (substrPiece k len m).«end» + k, (substrPiece k len m).href⟩ : Markup) = m := by
  refine Markup.ext_fields rfl ?_ ?_ rfl
  · show (if m.start > k then m.start - k else 0) + k = m.start
    split_ifs <;> omega
  · show (if m.«end» < len then m.«end» - k else len - k) + k = m.«end»
    split_ifs <;> omega

theorem substrPiece_split_shift (k len : Int) (m : Markup) (h1 : m.start < k)
    (h2 : k < m.«end») (h3 : m.«end» ≤ len) :
    (⟨(substrPiece k len m).type, (substrPiece k len m).start + k,
      (substrPiece k len m).«end» + k, (substrPiece k len m).href⟩ : Markup) =
      ⟨m.type, k, m.«end», m.href⟩ := by
  refine Markup.ext_fields rfl ?_ ?_ rfl
  · show (if m.start > k then m.start - k else 0) + k = k
    split_ifs <;> omega
  · show (if m.«end» < len then m.«end» - k else len - k) + k = m.«end»
    split_ifs <;> omega

theorem pieces_decomp (k len : Nat) (m : Markup)
    (h1 : 0 ≤ m.start) (h2 : m.start < m.«end») (h3 : m.«end» ≤ (len : Int)) :
    (if m.start < (k : Int) ∧ m.«end» > 0
        then some (substrPiece 0 (k : Int) m) else none).toList ++
      ((if m.start < (len : Int) ∧ m.«end» > (k : Int)
          then some (substrPiece (k : Int) (len : Int) m) else none).toList.map
        (fun p => (⟨p.type, p.start + (k : Int), p.«end» + (k : Int), p.href⟩ : Markup))) =
    piecesAt (k : Int) m := by
  by_cases hc1 : m.«end» ≤ (k : Int)
  · rw [piecesAt, if_pos hc1]
    rw [if_pos ⟨by omega, by omega⟩, if_neg (by omega)]
    rw [substrPiece_id (k : Int) m h1 hc1]
    simp
  · by_cases hc2 : (k : Int) ≤ m.start
    · rw [piecesAt, if_neg hc1, if_pos hc2]
      rw [if_neg (by omega), if_pos ⟨by omega, by omega⟩]
      simp only [Option.toList_none, Option.toList_some, List.map_cons, List.map_nil,
        List.nil_append]
      rw [substrPiece_right_shift (k : Int) (len : Int) m hc2 h2 h3]
    · rw [piecesAt, if_neg hc1, if_neg hc2]
      rw [if_pos ⟨by omega, by omega⟩, if_pos ⟨by omega, by omega⟩]
      simp only [Option.toList_some, List.map_cons, List.map_nil, List.singleton_append]
      rw [substrPiece_left (k : Int) m h1 (by omega) (by omega)]
      rw [substrPiece_split_shift (k : Int) (len : Int) m (by omega) (by omega) h3]

theorem filters_perm_bind (k len : Nat) (l : List Markup)
    (hwfm : ∀ m ∈ l, 0 ≤ m.start ∧ m.start < m.«end» ∧ m.«end» ≤ (len : Int)) :
    List.Perm
      (l.filterMap (fun m => if m.start < (k : Int) ∧ m.«end» > 0
          then some (substrPiece 0 (k : Int) m) else none) ++
        (l.filterMap (fun m => if m.start < (len : Int) ∧ m.«end» > (k : Int)
            then some (substrPiece (k : Int) (len : Int) m) else none)).map
          (fun p => (⟨p.type, p.start + (k : Int), p.«end» + (k : Int), p.href⟩ : Markup)))
      (l.flatMap (piecesAt (k : Int))) := by
  induction l with
  | nil => simp
  | cons m rest ih =>
    rw [filterMap_cons_toList, filterMap_cons_toList, List.map_append, List.flatMap_cons]
    refine (perm_shuffle _ _ _ _).trans ?_
    obtain ⟨hm1, hm2, hm3⟩ := hwfm m (by simp)
    rw [pieces_decomp k len m hm1 hm2 hm3]
    exact List.Perm.append_left _ (ih (fun x hx => hwfm x (by simp [hx])))

theorem mergeRun_bind (k : Int) (m : Markup) (rest : List Markup)
    (hsep : ∀ x ∈ rest, sepTypes m x)
    (hrec : mergeAdjacentList (rest.flatMap (piecesAt k)) = rest) :
    mergeRun m (rest.flatMap (piecesAt k)) = m :: rest := by
  cases rest with
  | nil => simp [mergeRun]
  | cons m2 rest2 =>
    obtain ⟨tl, hd, hpe, hty, hst⟩ := piecesAt_head k m2
    rw [List.flatMap_cons, hpe, List.cons_append] at hrec ⊢
    rw [mergeAdjacentList] at hrec
    rw [mergeRun, if_neg ?hnf]
    · rw [hrec]
    case hnf =>
      have hs := hsep m2 (by simp)
      unfold sepTypes at hs
      rw [hty, hst]
      rintro ⟨he, hle⟩
      have := hs he
      omega

theorem merge_pieces (k : Int) (l : List Markup)
    (hwfm : ∀ m ∈ l, m.start < m.«end»)
    (hsep : List.Pairwise sepTypes l) :
    mergeAdjacentList (l.flatMap (piecesAt k)) = l := by
  induction l with
  | nil => simp [mergeAdjacentList]
  | cons m rest ih =>
    have hrec := ih (fun x hx => hwfm x (by simp [hx])) (List.pairwise_cons.mp hsep).2
    have hm := hwfm m (by simp)
    have hsepm := (List.pairwise_cons.mp hsep).1
    rw [List.flatMap_cons]
    by_cases h1 : m.«end» ≤ k
    · have hp : piecesAt k m = [m] := by rw [piecesAt, if_pos h1]
      rw [hp, List.singleton_append, mergeAdjacentList]
      exact mergeRun_bind k m rest hsepm hrec
    · by_cases h2 : k ≤ m.start
      · have hp : piecesAt k m = [m] := by rw [piecesAt, if_neg h1, if_pos h2]
        rw [hp, List.singleton_append, mergeAdjacentList]
        exact mergeRun_bind k m rest hsepm hrec
      · have hp : piecesAt k m =
            [⟨m.type, m.start, k, m.href⟩, ⟨m.type, k, m.«end», m.href⟩] := by
          rw [piecesAt, if_neg h1, if_neg h2]
        rw [hp]
        simp only [List.cons_append, List.nil_append]
        rw [mergeAdjacentList, mergeRun, if_pos (by dsimp only; exact ⟨rfl, le_refl k⟩)]
        have e1 : min (⟨m.type, m.start, k, m.href⟩ : Markup).start
            (⟨m.type, k, m.«end», m.href⟩ : Markup).start = m.start := by
          dsimp only
          omega
        have e2 : max (⟨m.type, m.start, k, m.href⟩ : Markup).«end»
            (⟨m.type, k, m.«end», m.href⟩ : Markup).«end» = m.«end» := by
          dsimp only
          omega
        rw [e1, e2]
        exact mergeRun_bind k m rest hsepm hrec

theorem substrMarkups_skip (w e : Int) (ms : List Markup)
    (h : ∀ m ∈ ms, ¬(m.start < e ∧ m.«end» > w)) : substrMarkups w e ms = [] := by
  unfold substrMarkups
  have hgen : ∀ acc : List Markup, ms.foldl (fun acc m =>
      if m.start < e ∧ m.«end» > w then addMarkupList acc (substrPiece w e m) else acc) acc =
      acc := by
    induction ms with
    | nil => intro acc; rfl
    | cons m rest ih =>
      intro acc
      rw [List.foldl_cons, if_neg (h m (by simp))]
      exact ih (fun x hx => h x (by simp [hx])) acc
  exact hgen []

theorem substr_take (s : Serialize) (k : Nat)
    (hwf0 : ∀ m ∈ s.markups, 0 ≤ m.start)
    (hk1 : 1 ≤ s.text.length) (hk : k ≤ s.text.length) :
    s.substr 0 (some (k : Int)) =
      ⟨s.type, s.text.take k, substrMarkups 0 (k : Int) s.markups⟩ := by
  by_cases hk0 : k = 0
  · subst hk0
    rw [Serialize.substr, if_pos (by simp [lenArgNonpos])]
    have hm : substrMarkups 0 ((0 : Nat) : Int) s.markups = [] := by
      refine substrMarkups_skip _ _ _ ?_
      intro m hm
      have := hwf0 m hm
      push_cast
      omega
    rw [hm, List.take_zero]
  · have hguard : ¬(s.text.length = 0 ∨ lenArgNonpos (some (k : Int)) = true) := by
      rw [not_or]
      refine ⟨by omega, ?_⟩
      unfold lenArgNonpos
      simp only [decide_eq_true_eq, not_le]
      omega
    rw [Serialize.substr, if_neg hguard]
    rw [wrapStart_of_nonneg s.text.length 0 le_rfl]
    have hL : substrResolveLen s.text.length 0 (some (k : Int)) = (k : Int) := by
      show (if (0 : Int) + (k : Int) > (s.text.length : Int)
        then (s.text.length : Int) - 0 else (k : Int)) = (k : Int)
      have hc : ¬((0 : Int) + (k : Int) > (s.text.length : Int)) := by
        have := hk
        omega
      rw [if_neg hc]
    rw [hL, zero_add]
    have ht0 : ((0 : Int)).toNat = 0 := rfl
    rw [ht0, List.drop_zero, Int.toNat_natCast]

theorem substr_drop (s : Serialize) (k : Nat)
    (hk1 : 1 ≤ s.text.length) (hk : k ≤ s.text.length) :
    s.substr (k : Int) none =
      ⟨s.type, s.text.drop k, substrMarkups (k : Int) (s.text.length : Int) s.markups⟩ := by
  have hguard : ¬(s.text.length = 0 ∨ lenArgNonpos none = true) := by
    rw [not_or]
    exact ⟨by omega, by simp [lenArgNonpos]⟩
  rw [Serialize.substr, if_neg hguard]
  rw [wrapStart_of_nonneg s.text.length (k : Int) (by positivity)]
  have hL : substrResolveLen s.text.length (k : Int) none =
      (s.text.length : Int) - (k : Int) := rfl
  rw [hL]
  have he : (k : Int) + ((s.text.length : Int) - (k : Int)) = (s.text.length : Int) := by omega
  rw [he]
  have ht : ((s.text.length : Int) - (k : Int)).toNat = s.text.length - k := by omega
  rw [ht, Int.toNat_natCast]
  have htt : (s.text.drop k).take (s.text.length - k) = s.text.drop k := by
    rw [← List.length_drop]
    exact List.take_length _
  rw [htt]

theorem appendMarkups_splice (k len : Nat) (ms : List Markup) (hk : k ≤ len)
    (hwfm : ∀ m ∈ ms, 0 ≤ m.start ∧ m.start < m.«end» ∧ m.«end» ≤ (len : Int))
    (hsort : List.Pairwise mle ms) (hsep : List.Pairwise sepTypes ms) :
    appendMarkups (k : Int) (substrMarkups 0 (k : Int) ms)
      (substrMarkups (k : Int) (len : Int) ms) = ms := by
  have hwf1 : ∀ m ∈ ms, m.start < m.«end» := fun m hm => (hwfm m hm).2.1
  have hT : List.Pairwise mlt (ms.flatMap (piecesAt (k : Int))) :=
    pairwise_mlt_pieces _ ms hwf1 hsort hsep
  unfold appendMarkups
  have hsortF : List.Pairwise mle
      ((substrMarkups (k : Int) (len : Int) ms).foldl (fun acc m =>
        addMarkupList acc { type := m.type, start := m.start + (k : Int),
                            «end» := m.«end» + (k : Int), href := m.href })
        ((substrMarkups 0 (k : Int) ms).foldl (fun acc m =>
          addMarkupList acc { type := m.type, start := m.start, «end» := m.«end»,
                              href := m.href }) [])) := by
    refine foldl_addMarkup_sorted_map _ _ _ ?_
    exact foldl_addMarkup_sorted_map _ _ _ (by simp)
  have hcopy : (fun m : Markup =>
      ({ type := m.type, start := m.start, «end» := m.«end», href := m.href } : Markup)) =
      id := funext fun m => rfl
  have hpermA : List.Perm
      ((substrMarkups 0 (k : Int) ms).foldl (fun acc m =>
        addMarkupList acc { type := m.type, start := m.start, «end» := m.«end»,
                            href := m.href }) [])
      (substrMarkups 0 (k : Int) ms) := by
    have h := foldl_addMarkup_perm_map (fun m : Markup =>
      ({ type := m.type, start := m.start, «end» := m.«end», href := m.href } : Markup))
      (substrMarkups 0 (k : Int) ms) []
    rw [hcopy, List.map_id] at h
    exact h
  have hpermF : List.Perm
      ((substrMarkups (k : Int) (len : Int) ms).foldl (fun acc m =>
        addMarkupList acc { type := m.type, start := m.start + (k : Int),
                            «end» := m.«end» + (k : Int), href := m.href })
        ((substrMarkups 0 (k : Int) ms).foldl (fun acc m =>
          addMarkupList acc { type := m.type, start := m.start, «end» := m.«end»,
                              href := m.href }) []))
      (ms.flatMap (piecesAt (k : Int))) := by
    refine (foldl_addMarkup_perm_map _ _ _).trans ?_
    refine (List.Perm.append hpermA (List.Perm.refl _)).trans ?_
    refine (List.Perm.append (substrMarkups_perm 0 (k : Int) ms)
      ((substrMarkups_perm (k : Int) (len : Int) ms).map _)).trans ?_
    exact filters_perm_bind k len ms hwfm
  have heq := fold_eq_sorted_target hpermF hsortF hT
  rw [heq]
  exact merge_pieces (k : Int) ms hwf1 hsep

/-- C3 as claimed fails on the code: on the well-formed, sorted Serialization
with text "ab" and the touching bold markups {1,0,1} and {1,1,2}, cutting at
k = 2 and re-appending runs the mergeAdjacent pass of append, which fuses the
two markups into {1,0,2}, so equals returns false. -/
theorem substr_append_roundtrip_cex :
    (((Serialize.substr ⟨("p"), [('a'), ('b')], [⟨1, 0, 1, none⟩, ⟨1, 1, 2, none⟩]⟩
        0 (some 2)).append
      (Serialize.substr ⟨("p"), [('a'), ('b')], [⟨1, 0, 1, none⟩, ⟨1, 1, 2, none⟩]⟩
        2 none)).equals
      ⟨("p"), [('a'), ('b')], [⟨1, 0, 1, none⟩, ⟨1, 1, 2, none⟩]⟩) = false := by decide

/-- C3, amended: the slice-append round trip s.substr(0,k).append(s.substr(k))
.equals(s) holds for every 0 <= k <= s.length whenever s is well-formed, its
markups are sorted by (type, start, end), and no two same-type markups touch
or overlap — the separation that the counterexample shows is needed, because
the mergeAdjacent pass of append fuses touching same-type markups. -/
theorem substr_append_roundtrip (s : Serialize) (k : Nat) (hk : k ≤ s.length)
    (hwf : s.WF) (hsort : List.Pairwise mle s.markups)
    (hsep : List.Pairwise sepTypes s.markups) :
    ((s.substr 0 (some (k : Int))).append (s.substr (k : Int) none)).equals s = true := by
  unfold Serialize.WF at hwf
  unfold Serialize.length at hwf hk
  by_cases h0 : s.text.length = 0
  · have hk0 : k = 0 := by omega
    subst hk0
    have hnil : s.text = [] := List.eq_nil_of_length_eq_zero h0
    have hms : s.markups = [] := by
      cases hmm : s.markups with
      | nil => rfl
      | cons m ms =>
        have h := hwf m (by rw [hmm]; simp)
        omega
    rw [Serialize.substr, if_pos (by simp [lenArgNonpos])]
    rw [Serialize.substr, if_pos (by simp [h0])]
    rw [Serialize.append]
    unfold Serialize.equals
    simp [appendMarkups, mergeAdjacentList, hnil, hms]
  · have hlen1 : 1 ≤ s.text.length := Nat.one_le_iff_ne_zero.mpr h0
    have hwf0 : ∀ m ∈ s.markups, 0 ≤ m.start := fun m hm => (hwf m hm).1
    rw [substr_take s k hwf0 hlen1 hk]
    rw [substr_drop s k hlen1 hk]
    rw [Serialize.append]
    have hlenA : ((⟨s.type, s.text.take k,
        substrMarkups 0 (k : Int) s.markups⟩ : Serialize).length : Int) = (k : Int) := by
      unfold Serialize.length
      dsimp only
      rw [List.length_take]
      push_cast
      omega
    rw [hlenA]
    dsimp only
    rw [List.take_append_drop]
    rw [appendMarkups_splice k s.text.length s.markups hk hwf hsort hsep]
    unfold Serialize.equals
    simp

theorem substr_append_roundtrip_witness :
    (((Serialize.substr ⟨("p"), [('a'), ('b'), ('c')],
        [⟨1, 0, 2, none⟩, ⟨2, 1, 3, some ("u")⟩]⟩ 0 (some 1)).append
      (Serialize.substr ⟨("p"), [('a'), ('b'), ('c')],
        [⟨1, 0, 2, none⟩, ⟨2, 1, 3, some ("u")⟩]⟩ 1 none)).equals
      ⟨("p"), [('a'), ('b'), ('c')], [⟨1, 0, 2, none⟩, ⟨2, 1, 3, some ("u")⟩]⟩) = true :=
  substr_append_roundtrip ⟨("p"), [('a'), ('b'), ('c')],
    [⟨1, 0, 2, none⟩, ⟨2, 1, 3, some ("u")⟩]⟩ 1 (by decide) (by decide) (by decide) (by decide)
